import Mathlib

/-!
Verification of the fontbench outline-geometry engine.

This file gives a shallow embedding, over exact rationals, of the parts of
the repository that the checked properties concern:

* `src/experiments/grayscale/integration.py` — curve evaluators
  (`line_xy`, `quad_xy`, `cubic_xy`), the composite-Simpson integrator
  (`simpson_integral`), the signed-area engine (`area_of_paths`) and the
  path-description parser (`svg_to_paths`);
* `src/fontbench/utils.py` — the outline normalizer
  (`_path_to_svg_path_data`, `_emit_truetype_qspline`) that converts
  glyphsLib node sequences into canonical segment sequences;
* `src/fontbench/metrics.py` — the `grayscale` method dispatcher.

Machine floats are modelled as exact rationals.  Python exceptions
(assertion errors, value errors, index errors, division by zero) are
modelled by `Option`: a function that can raise returns `none` exactly
where the source raises.  The parts of the source that build
space-separated command strings are modelled by the corresponding lists of
canonical segments, which is the content those strings carry.
-/

/-- A point in the plane, `(x, y)`, as in `integration.py`. -/
abbrev Pt := ℚ × ℚ

/-- Canonical path segments, as in the tuples built by `integration.py`
(`('M',x,y)`, `('L',(x,y))`, `('Q',(cx,cy,x,y))`,
`('C',(cx1,cy1,cx2,cy2,x,y))`, `('Z',)`).  The coordinate type is a
parameter because `svg_to_paths` stores raw tokens in coordinate slots. -/
inductive Seg (α : Type) where
  | M (x y : α)
  | L (x y : α)
  | Q (cx cy x y : α)
  | C (cx1 cy1 cx2 cy2 x y : α)
  | Z
deriving DecidableEq, Repr

/-- Functorial action on the coordinates of a segment. -/
def Seg.map {α β : Type} (f : α → β) : Seg α → Seg β
  | .M x y => .M (f x) (f y)
  | .L x y => .L (f x) (f y)
  | .Q cx cy x y => .Q (f cx) (f cy) (f x) (f y)
  | .C a b c d x y => .C (f a) (f b) (f c) (f d) (f x) (f y)
  | .Z => .Z

/-- Embedding of `line_xy` from `integration.py`: position and derivative
of the straight segment from `p0` to `p1`. -/
def line_xy (p0 p1 : Pt) : (ℚ → Pt) × (ℚ → Pt) :=
  (fun t => (p0.1 + t * (p1.1 - p0.1), p0.2 + t * (p1.2 - p0.2)),
   fun _ => (p1.1 - p0.1, p1.2 - p0.2))

/-- Embedding of `quad_xy` from `integration.py`. -/
def quad_xy (p0 c p1 : Pt) : (ℚ → Pt) × (ℚ → Pt) :=
  (fun t =>
    ((1 - t) * (1 - t) * p0.1 + 2 * (1 - t) * t * c.1 + t * t * p1.1,
     (1 - t) * (1 - t) * p0.2 + 2 * (1 - t) * t * c.2 + t * t * p1.2),
   fun t =>
    (2 * ((1 - t) * (c.1 - p0.1) + t * (p1.1 - c.1)),
     2 * ((1 - t) * (c.2 - p0.2) + t * (p1.2 - c.2))))

/-- Embedding of `cubic_xy` from `integration.py`. -/
def cubic_xy (p0 c1 c2 p1 : Pt) : (ℚ → Pt) × (ℚ → Pt) :=
  (fun t =>
    ((1 - t) * (1 - t) * (1 - t) * p0.1 + 3 * ((1 - t) * (1 - t)) * t * c1.1 +
       3 * (1 - t) * (t * t) * c2.1 + t * t * t * p1.1,
     (1 - t) * (1 - t) * (1 - t) * p0.2 + 3 * ((1 - t) * (1 - t)) * t * c1.2 +
       3 * (1 - t) * (t * t) * c2.2 + t * t * t * p1.2),
   fun t =>
    (3 * ((c1.1 - p0.1) * ((1 - t) * (1 - t)) + 2 * (c2.1 - c1.1) * ((1 - t) * t) +
       (p1.1 - c2.1) * (t * t)),
     3 * ((c1.2 - p0.2) * ((1 - t) * (1 - t)) + 2 * (c2.2 - c1.2) * ((1 - t) * t) +
       (p1.2 - c2.2) * (t * t))))

/-- Embedding of `simpson_integral` from `integration.py`.  An odd `n` is
bumped to `n + 1`; the loop `for k in range(1, n)` adds `f (k * h)` to the
odd or even accumulator according to the parity of `k`.  When the bumped
`n` is `0` (that is, for input `0`) the source evaluates `1.0 / 0`, a
`ZeroDivisionError`, modelled by `none`. -/
def simpson_integral (f : ℚ → ℚ) (n0 : ℕ) : Option ℚ :=
  let n := if n0 % 2 = 1 then n0 + 1 else n0
  if n = 0 then none
  else
    let h : ℚ := 1 / (n : ℚ)
    let s := f 0 + f 1
    let odd := ∑ k in Finset.Ico 1 n, if k % 2 = 1 then f (k * h) else 0
    let even := ∑ k in Finset.Ico 1 n, if k % 2 = 0 then f (k * h) else 0
    some ((s + 4 * odd + 2 * even) * h / 3)

/-- Embedding of `oriented_area_of_segment` from `integration.py`. -/
def oriented_area_of_segment (xy dxy : ℚ → Pt) (n : ℕ) : Option ℚ :=
  (simpson_integral (fun t => (xy t).1 * (dxy t).2 - (xy t).2 * (dxy t).1) n).map
    (fun v => 1 / 2 * v)

/-- Embedding of the segment loop of `area_of_paths` for one path: `start`
is the `('M', x0, y0)` point of the subpath, `curr` the current point.
A mid-path `M` falls into the `else` branch of the source, which raises
`ValueError`, hence `none`.  On `Z` the source integrates an implicit
closing line exactly when `curr` differs from `start`, then resets `curr`
to `start` and keeps scanning. -/
def area_of_path_aux (start curr : Pt) (segs : List (Seg ℚ)) (n : ℕ) : Option ℚ :=
  match segs with
  | [] => some 0
  | .M _ _ :: _ => none
  | .L x1 y1 :: rest => do
      let fs := line_xy curr (x1, y1)
      let a ← oriented_area_of_segment fs.1 fs.2 n
      let r ← area_of_path_aux start (x1, y1) rest n
      pure (a + r)
  | .Q cx cy x1 y1 :: rest => do
      let fs := quad_xy curr (cx, cy) (x1, y1)
      let a ← oriented_area_of_segment fs.1 fs.2 n
      let r ← area_of_path_aux start (x1, y1) rest n
      pure (a + r)
  | .C cx1 cy1 cx2 cy2 x1 y1 :: rest => do
      let fs := cubic_xy curr (cx1, cy1) (cx2, cy2) (x1, y1)
      let a ← oriented_area_of_segment fs.1 fs.2 n
      let r ← area_of_path_aux start (x1, y1) rest n
      pure (a + r)
  | .Z :: rest => do
      let a ← if curr = start then pure 0 else
        oriented_area_of_segment (line_xy curr start).1 (line_xy curr start).2 n
      let r ← area_of_path_aux start start rest n
      pure (a + r)

/-- One subpath of `area_of_paths`: the source asserts that the path is
nonempty and starts with `('M', x, y)`; a violated assertion is `none`. -/
def area_of_single_path (path : List (Seg ℚ)) (n : ℕ) : Option ℚ :=
  match path with
  | .M x0 y0 :: rest => area_of_path_aux (x0, y0) (x0, y0) rest n
  | _ => none

/-- Embedding of `area_of_paths` from `integration.py`: the running total
starts at `0` and accumulates the signed area of every subpath. -/
def area_of_paths (paths : List (List (Seg ℚ))) (n : ℕ) : Option ℚ :=
  paths.foldlM (fun total p => (area_of_single_path p n).map (fun a => total + a)) 0

/-- One cross term `x_i * y_j - y_i * x_j` of the shoelace formula. -/
def crossTerm (p q : Pt) : ℚ := p.1 * q.2 - p.2 * q.1

/-- Cyclic shoelace sum: cross terms of consecutive vertices, closing from
the last vertex back to `start`. -/
def shoelaceGo (start p0 : Pt) : List Pt → ℚ
  | [] => crossTerm p0 start
  | q :: rest => crossTerm p0 q + shoelaceGo start q rest

/-- Shoelace signed area `1/2 * Σ (x_i * y_{i+1} - y_i * x_{i+1})` of a
vertex list, indices cyclic. -/
def shoelace : List Pt → ℚ
  | [] => 0
  | v :: vs => 1 / 2 * shoelaceGo v v vs

/-- A vertex list is counter-clockwise when its shoelace signed area is
positive (the standard orientation criterion). -/
def IsCCW (vs : List Pt) : Prop := 0 < shoelace vs

/-- The closed polygon path on a vertex list: a `Move` to the first
vertex, a `Line` to each further vertex, and a `Close`. -/
def polygonPath (vs : List Pt) : List (Seg ℚ) :=
  match vs with
  | [] => []
  | v :: rest => .M v.1 v.2 :: ((rest.map fun p => Seg.L p.1 p.2) ++ [.Z])

/-! ## Outline normalizer (`src/fontbench/utils.py`) -/

/-- The four glyphsLib node types `LINE`, `CURVE`, `QCURVE`, `OFFCURVE`. -/
inductive NodeType where
  | line | curve | qcurve | offcurve
deriving DecidableEq, Repr

/-- A glyphsLib path node: a position and a node type. -/
structure GSNode where
  x : ℚ
  y : ℚ
  type : NodeType
deriving DecidableEq, Repr

/-- The coordinate transform `svg_coords` used throughout `utils.py`:
`(node.position.x * scaling, (ascender - node.position.y) * scaling)`. -/
def svg_coords (ascender scaling : ℚ) (node : GSNode) : Pt :=
  (node.x * scaling, (ascender - node.y) * scaling)

/-- Embedding of `_emit_truetype_qspline` from `utils.py`.  For each
off-curve node one `Q` command is emitted; while a further off-curve node
follows, the end point is the midpoint of the two off-curve positions
(computed in font coordinates, then transformed); the last off-curve node
connects to the explicit `endpoint`.  The source builds the command
strings `Q cx cy, x y`; the embedding keeps them as segments. -/
def emit_truetype_qspline (ascender scaling : ℚ) :
    List GSNode → GSNode → List (Seg ℚ)
  | [], _ => []
  | [o], endpoint =>
      let ctrl := svg_coords ascender scaling o
      let e := svg_coords ascender scaling endpoint
      [.Q ctrl.1 ctrl.2 e.1 e.2]
  | o :: o2 :: rest, endpoint =>
      let ctrl := svg_coords ascender scaling o
      let e : Pt := ((o.x + o2.x) / 2 * scaling, (ascender - (o.y + o2.y) / 2) * scaling)
      .Q ctrl.1 ctrl.2 e.1 e.2 :: emit_truetype_qspline ascender scaling (o2 :: rest) endpoint

/-- Embedding of the rotation loop that opens `_path_to_svg_path_data`:

`while path.nodes[-1].type == OFFCURVE: path.nodes.insert(0, path.nodes.pop(-1))`

One iteration moves the last node to the front.  `fuel` bounds the number
of iterations taken; `none` means the loop has not exited within `fuel`
iterations (or, for the empty list, that `path.nodes[-1]` raises
`IndexError`). -/
def rotateSteps (fuel : ℕ) (ns : List GSNode) : Option (List GSNode) :=
  match ns.getLast? with
  | none => none
  | some last =>
    if last.type = NodeType.offcurve then
      match fuel with
      | 0 => none
      | f + 1 => rotateSteps f (last :: ns.dropLast)
    else some ns

/-- The rotation loop with enough fuel for every terminating run: the loop
stops as soon as some rotation brings an on-curve node to the last
position, which takes fewer than `ns.length` iterations whenever it
happens at all. -/
def rotateToOncurve (ns : List GSNode) : Option (List GSNode) :=
  rotateSteps ns.length ns

/-- Embedding of the scanning loop of `_path_to_svg_path_data` on the
rotated node list.  The second argument is the number of positions still
to be skipped because an earlier iteration consumed them (`i` jumps by
`len(offcurves) + 1` after a curve run).  On an off-curve node the run of
consecutive off-curves is collected and the node after it is the
terminator; the `nextNode` chase of the source would wrap cyclically past
the end of the list, which cannot happen after rotation because the last
node is on-curve (`none` in that unreachable case).  Failed `assert`
statements and the `ValueError` for a bare on-curve node are `none`. -/
def scanNodes (ascender scaling : ℚ) : List GSNode → ℕ → Option (List (Seg ℚ))
  | [], _ => some []
  | _ :: rest, skip + 1 => scanNodes ascender scaling rest skip
  | node :: rest, 0 =>
    if node.type = NodeType.line then
      (scanNodes ascender scaling rest 0).map (fun segs =>
        let p := svg_coords ascender scaling node
        .L p.1 p.2 :: segs)
    else if node.type = NodeType.offcurve then
      let offTail := rest.takeWhile (fun m => m.type = NodeType.offcurve)
      match (rest.drop offTail.length).head? with
      | none => none
      | some endpoint =>
        let after := scanNodes ascender scaling rest (offTail.length + 1)
        match offTail, endpoint.type with
        | [], NodeType.qcurve =>
            after.map (fun segs =>
              let c := svg_coords ascender scaling node
              let e := svg_coords ascender scaling endpoint
              .Q c.1 c.2 e.1 e.2 :: segs)
        | [], _ => none
        | [o2], NodeType.curve =>
            after.map (fun segs =>
              let c1 := svg_coords ascender scaling node
              let c2 := svg_coords ascender scaling o2
              let e := svg_coords ascender scaling endpoint
              .C c1.1 c1.2 c2.1 c2.2 e.1 e.2 :: segs)
        | _, NodeType.qcurve =>
            after.map (fun segs =>
              emit_truetype_qspline ascender scaling (node :: offTail) endpoint ++ segs)
        | _, _ => none
    else none

/-- Embedding of `_path_to_svg_path_data` from `utils.py`: rotate the
nodes until the last node is on-curve, start with a `Move` to the last
node, scan the node runs into segments, and append a `Close`. -/
def path_to_svg_path_data (nodes : List GSNode) (ascender scaling : ℚ) :
    Option (List (Seg ℚ)) := do
  let ns ← rotateToOncurve nodes
  let last ← ns.getLast?
  let start := svg_coords ascender scaling last
  let segs ← scanNodes ascender scaling ns 0
  pure (.M start.1 start.2 :: (segs ++ [.Z]))

/-- Embedding of the path loop of `_layer_to_svg_content` from `utils.py`
for a layer whose shapes are paths: each path is converted in turn with no
exception handling, so a raised exception aborts the whole conversion. -/
def layerPathsToSvg (paths : List (List GSNode)) (ascender scaling : ℚ) :
    Option (List (List (Seg ℚ))) :=
  match paths with
  | [] => some []
  | ns :: rest => do
      let d ← path_to_svg_path_data ns ascender scaling
      let r ← layerPathsToSvg rest ascender scaling
      pure (d :: r)

/-! ## Interchange parser (`svg_to_paths` in `integration.py`) -/

/-- A token produced by the tokenizer: a command letter captured by the
first group of `([MLQCZ])|(-?\d*\.?\d+)`, or the float value of a numeral
captured by the second group. -/
inductive Tok where
  | cmd (c : Char)
  | num (q : ℚ)
deriving DecidableEq, Repr

/-- The command character class `[MLQCZ]` of the tokenizer pattern. -/
def isCmdChar (c : Char) : Bool :=
  c == 'M' || c == 'L' || c == 'Q' || c == 'C' || c == 'Z'

/-- Deterministic form of a greedy match of `\d*\.?\d+` at the head of
`t`: the longest digit run, then, if a dot directly followed by a digit
comes next, the dot and the longest digit run after it; otherwise the
backtracking drops the dot and the match is the leading digit run alone,
failing if that run is empty.  Returns the matched numeral and the rest. -/
def matchNumCore (t : List Char) : Option (List Char × List Char) :=
  let a := t.takeWhile Char.isDigit
  match t.drop a.length with
  | '.' :: r2 =>
    let b := r2.takeWhile Char.isDigit
    if b.isEmpty then
      if a.isEmpty then none else some (a, '.' :: r2)
    else some (a ++ '.' :: b, r2.drop b.length)
  | r =>
    if a.isEmpty then none else some (a, r)

/-- Greedy match of `-?\d*\.?\d+` at the head of the list: an optional
leading minus sign, then `matchNumCore`; a minus sign not followed by a
numeral matches nothing. -/
def matchNum (l : List Char) : Option (List Char × List Char) :=
  match l with
  | '-' :: t => (matchNumCore t).map (fun p => ('-' :: p.1, p.2))
  | t => matchNumCore t

/-- The natural number denoted by a big-endian digit-character list. -/
def digitsVal (l : List Char) : ℕ :=
  l.foldl (fun acc c => 10 * acc + (c.toNat - 48)) 0

/-- Value of an unsigned numeral (`float` of the matched text): digits,
optionally followed by a dot and the fractional digits. -/
def numeralCore (t : List Char) : ℚ :=
  let a := t.takeWhile Char.isDigit
  match t.drop a.length with
  | '.' :: b => (digitsVal (a ++ b) : ℚ) / 10 ^ b.length
  | _ => (digitsVal a : ℚ)

/-- Value of a matched numeral, with its optional leading minus sign. -/
def numeralToRat : List Char → ℚ
  | '-' :: t => - numeralCore t
  | t => numeralCore t

/-- Embedding of the `finditer` tokenization loop: at each position a
command character yields a command token, a numeral match yields its float
value and scanning resumes after the matched text, and any other character
is not part of a match and is passed over silently.  The second argument
counts characters still covered by the last numeral match. -/
def tokGo : List Char → ℕ → List Tok
  | [], _ => []
  | _ :: cs, skip + 1 => tokGo cs skip
  | c :: cs, 0 =>
    if isCmdChar c then Tok.cmd c :: tokGo cs 0
    else
      match matchNum (c :: cs) with
      | some (m, _) => Tok.num (numeralToRat m) :: tokGo cs (m.length - 1)
      | none => tokGo cs 0

/-- Tokenization of a character list. -/
def tokenize (l : List Char) : List Tok := tokGo l 0

/-- Embedding of the token loop of `svg_to_paths`.  `paths` and `curr`
mirror the accumulator lists of the source.  On `M` the current path, if
nonempty, is flushed and a new one starts.  Coordinate slots receive the
raw tokens `tokens[i+1], ...` exactly as the source stores them; a missing
token raises `IndexError` and a float token in command position raises
`ValueError`, both modelled by `none`.  A command token other than
`M`,`L`,`Q`,`C`,`Z` cannot be produced by the tokenizer (`none` in that
unreachable case). -/
def parseTokens : List Tok → List (List (Seg Tok)) → List (Seg Tok) →
    Option (List (List (Seg Tok)))
  | [], paths, curr => some (if curr.isEmpty then paths else paths ++ [curr])
  | Tok.cmd 'M' :: ts, paths, curr =>
      match ts with
      | x :: y :: rest =>
          parseTokens rest (if curr.isEmpty then paths else paths ++ [curr]) [.M x y]
      | _ => none
  | Tok.cmd 'L' :: ts, paths, curr =>
      match ts with
      | x :: y :: rest => parseTokens rest paths (curr ++ [.L x y])
      | _ => none
  | Tok.cmd 'C' :: ts, paths, curr =>
      match ts with
      | a :: b :: c :: d :: x :: y :: rest =>
          parseTokens rest paths (curr ++ [.C a b c d x y])
      | _ => none
  | Tok.cmd 'Q' :: ts, paths, curr =>
      match ts with
      | cx :: cy :: x :: y :: rest => parseTokens rest paths (curr ++ [.Q cx cy x y])
      | _ => none
  | Tok.cmd 'Z' :: ts, paths, curr => parseTokens ts paths (curr ++ [.Z])
  | Tok.cmd _ :: _, _, _ => none
  | Tok.num _ :: _, _, _ => none

/-- Embedding of `svg_to_paths` from `integration.py`. -/
def svg_to_paths (s : String) : Option (List (List (Seg Tok))) :=
  parseTokens (tokenize s.data) [] []

/-! ## Interchange encoder (modelled from the spec) -/

/-- The character for a decimal digit value. -/
def digitChar (d : ℕ) : Char := Char.ofNat (48 + d)

/-- Big-endian decimal digit characters of a natural number. -/
def renderNat (n : ℕ) : List Char :=
  if n = 0 then ['0'] else (Nat.digits 10 n).reverse.map digitChar

/-- Big-endian decimal digit characters of `n` left-padded with zeros to
`e` digits (used for the fractional part, where `n < 10 ^ e`). -/
def renderPad (n e : ℕ) : List Char :=
  ((Nat.digits 10 n ++ List.replicate (e - (Nat.digits 10 n).length) 0).reverse).map digitChar

/-- The least number of decimal places that writes `q` exactly, whenever
`q` has a finite decimal expansion (its search range `q.den + 1` always
suffices in that case). -/
def decExponent (q : ℚ) : ℕ :=
  (((List.range (q.den + 1)).find? fun e => (q * 10 ^ e).den = 1).getD 0)

/-- `q` has a finite decimal expansion.  Every IEEE float is a dyadic
rational, so every coordinate value of the source program satisfies
this. -/
def DecRat (q : ℚ) : Prop := ∃ e, e ≤ q.den ∧ (q * 10 ^ e).den = 1

/-- The decimal numeral for the rational `m / 10 ^ e`: sign, integer
digits, and — when `e > 0` — a dot and exactly `e` fractional digits. -/
def ratCore (m : ℤ) (e : ℕ) : List Char :=
  let core :=
    if e = 0 then renderNat m.natAbs
    else renderNat (m.natAbs / 10 ^ e) ++ '.' :: renderPad (m.natAbs % 10 ^ e) e
  if m < 0 then '-' :: core else core

/-- Modelled from the spec: the interchange format writes coordinates as
plain decimal numerals (sign, integer digits, optional dot and fractional
digits); the serializer direction of the Interchange Encoder for canonical
Paths is not part of `src/`. -/
def ratToChars (q : ℚ) : List Char :=
  ratCore (q * 10 ^ decExponent q).num (decExponent q)

/-- Modelled from the spec: one segment of the path-description
mini-language `M x y (L x y | Q cx cy x y | C c1x c1y c2x c2y x y)* Z?`,
with single spaces between tokens. -/
def encodeSeg : Seg ℚ → List Char
  | .M x y => 'M' :: ' ' :: (ratToChars x ++ ' ' :: ratToChars y)
  | .L x y => 'L' :: ' ' :: (ratToChars x ++ ' ' :: ratToChars y)
  | .Q cx cy x y =>
      'Q' :: ' ' :: (ratToChars cx ++ ' ' :: (ratToChars cy ++ ' ' ::
        (ratToChars x ++ ' ' :: ratToChars y)))
  | .C a b c d x y =>
      'C' :: ' ' :: (ratToChars a ++ ' ' :: (ratToChars b ++ ' ' ::
        (ratToChars c ++ ' ' :: (ratToChars d ++ ' ' ::
          (ratToChars x ++ ' ' :: ratToChars y)))))
  | .Z => ['Z']

/-- Space-separated concatenation. -/
def joinSpace : List (List Char) → List Char
  | [] => []
  | [a] => a
  | a :: b :: r => a ++ ' ' :: joinSpace (b :: r)

/-- Modelled from the spec: a canonical Path rendered to the interchange
path-description text, segments separated by whitespace. -/
def encodePath (p : List (Seg ℚ)) : List Char := joinSpace (p.map encodeSeg)

/-- The tokens that the tokenizer recovers from one encoded segment. -/
def segToks : Seg ℚ → List Tok
  | .M x y => [.cmd 'M', .num x, .num y]
  | .L x y => [.cmd 'L', .num x, .num y]
  | .Q cx cy x y => [.cmd 'Q', .num cx, .num cy, .num x, .num y]
  | .C a b c d x y => [.cmd 'C', .num a, .num b, .num c, .num d, .num x, .num y]
  | .Z => [.cmd 'Z']

/-- A drawing segment: `Line`, `Quad` or `Cubic`. -/
def isDrawSeg {α : Type} : Seg α → Bool
  | .L _ _ => true
  | .Q _ _ _ _ => true
  | .C _ _ _ _ _ _ => true
  | _ => false

/-- The coordinates stored in one segment. -/
def segCoords : Seg ℚ → List ℚ
  | .M x y => [x, y]
  | .L x y => [x, y]
  | .Q cx cy x y => [cx, cy, x, y]
  | .C a b c d x y => [a, b, c, d, x, y]
  | .Z => []

/-! ## Metrics dispatcher (`src/fontbench/metrics.py`) -/

/-- Embedding of `grayscale` from `metrics.py`: an `if`/`elif` chain on the
method name with no `else`, so any other method string falls off the end
of the function and returns `None`.  The two implementations are
parameters of the embedding (they rasterize or integrate a layer); the
layer type is abstract. -/
def grayscale {Layer : Type} (integrationImpl pyvipsImpl : Layer → ℚ)
    (layer : Layer) (method : String) : Option ℚ :=
  if method = "integration" then some (integrationImpl layer)
  else if method = "pyvips" then some (pyvipsImpl layer)
  else none

/-! ## Concrete inputs used by counterexamples and witnesses -/

/-- An outer counter-clockwise square of side 10 (in the Y-up frame of
`area_of_paths` inputs). -/
def outerSquareVerts : List Pt := [(0, 0), (10, 0), (10, 10), (0, 10)]

/-- An inner clockwise square of side 4 inside the outer square. -/
def innerSquareVerts : List Pt := [(3, 3), (3, 7), (7, 7), (7, 3)]

/-- An on-curve cubic endpoint node. -/
def curveNode : GSNode := ⟨8, 0, NodeType.curve⟩

/-- An on-curve quadratic endpoint node. -/
def qcurveNode : GSNode := ⟨5, 5, NodeType.qcurve⟩

/-- Off-curve control nodes. -/
def offNode1 : GSNode := ⟨1, 2, NodeType.offcurve⟩

def offNode2 : GSNode := ⟨3, 4, NodeType.offcurve⟩

def offNode3 : GSNode := ⟨5, 6, NodeType.offcurve⟩

/-- A well-formed subpath: a unit square of `LINE` nodes. -/
def squareNodes : List GSNode :=
  [⟨1, 0, NodeType.line⟩, ⟨1, 1, NodeType.line⟩, ⟨0, 1, NodeType.line⟩, ⟨0, 0, NodeType.line⟩]

/-- A malformed subpath: a run of exactly 3 consecutive off-curve nodes
whose terminating on-curve node has the cubic type `CURVE`. -/
def badQuarticNodes : List GSNode := [offNode1, offNode2, offNode3, curveNode]

/-- A path-description string whose only flaw is the unsupported lowercase
command `z`. -/
def lowercaseCloseInput : String := "M 1 2 z"

/-! # Helper lemmas: the Simpson integrator on constants -/

theorem card_odd_Ico (n : ℕ) :
    ((Finset.Ico 1 n).filter fun k => k % 2 = 1).card = n / 2 := by
  induction n with
  | zero => simp
  | succ m ih =>
    rcases Nat.eq_zero_or_pos m with hm | hm
    · subst hm; simp
    · rw [Nat.Ico_succ_right_eq_insert_Ico hm, Finset.filter_insert]
      by_cases hp : m % 2 = 1
      · rw [if_pos hp, Finset.card_insert_of_not_mem (by simp), ih]
        omega
      · rw [if_neg hp, ih]
        omega

theorem card_even_Ico (n : ℕ) :
    ((Finset.Ico 1 n).filter fun k => k % 2 = 0).card = (n - 1) / 2 := by
  induction n with
  | zero => simp
  | succ m ih =>
    rcases Nat.eq_zero_or_pos m with hm | hm
    · subst hm; simp
    · rw [Nat.Ico_succ_right_eq_insert_Ico hm, Finset.filter_insert]
      by_cases hp : m % 2 = 0
      · rw [if_pos hp, Finset.card_insert_of_not_mem (by simp), ih]
        omega
      · rw [if_neg hp, ih]
        omega

theorem simpson_integral_const (c : ℚ) (n : ℕ) (hev : n % 2 = 0) (hn : 2 ≤ n) :
    simpson_integral (fun _ => c) n = some c := by
  obtain ⟨m, rfl⟩ : ∃ m, n = 2 * m := ⟨n / 2, by omega⟩
  have hm : 1 ≤ m := by omega
  simp only [simpson_integral]
  rw [if_neg (by omega : ¬ (2 * m) % 2 = 1), if_neg (by omega : ¬ 2 * m = 0)]
  congr 1
  rw [← Finset.sum_filter (fun k => k % 2 = 1) (fun _ => c),
    ← Finset.sum_filter (fun k => k % 2 = 0) (fun _ => c),
    Finset.sum_const, Finset.sum_const, card_odd_Ico, card_even_Ico]
  rw [show (2 * m) / 2 = m from by omega, show (2 * m - 1) / 2 = m - 1 from by omega]
  rw [nsmul_eq_mul, nsmul_eq_mul, Nat.cast_sub hm]
  have hm0 : ((m : ℚ)) ≠ 0 := by positivity
  push_cast
  field_simp
  ring

theorem oriented_area_line (p q : Pt) (n : ℕ) (hev : n % 2 = 0) (hn : 2 ≤ n) :
    oriented_area_of_segment (line_xy p q).1 (line_xy p q).2 n =
      some (1 / 2 * crossTerm p q) := by
  have hf : (fun t => ((line_xy p q).1 t).1 * ((line_xy p q).2 t).2 -
      ((line_xy p q).1 t).2 * ((line_xy p q).2 t).1) = fun _ => crossTerm p q := by
    funext t
    simp only [line_xy, crossTerm]
    ring
  unfold oriented_area_of_segment
  rw [hf, simpson_integral_const _ _ hev hn]
  rfl

theorem area_aux_polyline (n : ℕ) (hev : n % 2 = 0) (hn : 2 ≤ n) :
    ∀ (vs : List Pt) (s c : Pt),
      area_of_path_aux s c ((vs.map fun p => Seg.L p.1 p.2) ++ [Seg.Z]) n =
        some (1 / 2 * shoelaceGo s c vs) := by
  intro vs
  induction vs with
  | nil =>
    intro s c
    by_cases h : c = s
    · subst h
      simp [area_of_path_aux, shoelaceGo, crossTerm]
      ring
    · simp only [List.map_nil, List.nil_append, area_of_path_aux, if_neg h,
        oriented_area_line c s n hev hn, Option.bind_eq_bind, Option.some_bind,
        shoelaceGo]
      simp
  | cons v rest ih =>
    intro s c
    simp only [List.map_cons, List.cons_append, area_of_path_aux,
      oriented_area_line c (v.1, v.2) n hev hn, Option.bind_eq_bind,
      Option.some_bind, shoelaceGo, List.append_eq]
    rw [ih s v]
    simp only [Option.some_bind, Option.pure_def, Option.some.injEq]
    ring

theorem area_polygon (v : Pt) (vs : List Pt) (n : ℕ) (hev : n % 2 = 0) (hn : 2 ≤ n) :
    area_of_single_path (polygonPath (v :: vs)) n = some (shoelace (v :: vs)) := by
  simp only [polygonPath, area_of_single_path, shoelace]
  rw [show ((v.1, v.2) : Pt) = v from rfl]
  exact area_aux_polyline n hev hn vs v v

/-! # Claims C1, C2, C5 -/

/-- Claim C1: for every closed polygon path given as a `Move` followed by
`Line` segments and a `Close`, and every even sample count `n ≥ 2`,
`area_of_paths` returns exactly the shoelace-formula signed area
`1/2 * Σ (x_i * y_{i+1} - y_i * x_{i+1})` of the vertex list, and the
result is positive exactly when the vertex list is counter-clockwise. -/
theorem C1_polygon_area_is_shoelace (v : Pt) (vs : List Pt) (n : ℕ)
    (hev : n % 2 = 0) (hn : 2 ≤ n) :
    area_of_paths [polygonPath (v :: vs)] n = some (shoelace (v :: vs)) ∧
      (∀ a : ℚ, area_of_paths [polygonPath (v :: vs)] n = some a →
        (0 < a ↔ IsCCW (v :: vs))) := by
  have h1 : area_of_paths [polygonPath (v :: vs)] n = some (shoelace (v :: vs)) := by
    simp [area_of_paths, List.foldlM, area_polygon v vs n hev hn]
  refine ⟨h1, fun a ha => ?_⟩
  rw [h1] at ha
  injection ha with ha
  rw [← ha]
  exact Iff.rfl

/-- Witness for C1: the unit right triangle, counter-clockwise, with the
minimal even sample count. -/
theorem C1_polygon_area_is_shoelace_witness :
    area_of_paths [polygonPath [(0, 0), (1, 0), (0, 1)]] 2 =
        some (shoelace [(0, 0), (1, 0), (0, 1)]) ∧
      (∀ a : ℚ, area_of_paths [polygonPath [(0, 0), (1, 0), (0, 1)]] 2 = some a →
        (0 < a ↔ IsCCW [(0, 0), (1, 0), (0, 1)])) :=
  C1_polygon_area_is_shoelace (0, 0) [(1, 0), (0, 1)] 2 (by decide) (by decide)

/-- Claim C2: on `Close` the engine synthesizes the implicit closing line
exactly when the current point differs from the start point, and for the
outer counter-clockwise square of side 10 with the inner clockwise square
of side 4 the signed total is `100 - 16 = 84`. -/
theorem C2_square_with_hole_area (n : ℕ) (hev : n % 2 = 0) (hn : 2 ≤ n) :
    area_of_paths [polygonPath outerSquareVerts, polygonPath innerSquareVerts] n =
      some 84 := by
  have h1 : area_of_single_path (polygonPath outerSquareVerts) n = some 100 := by
    have h := area_polygon (0, 0) [(10, 0), (10, 10), (0, 10)] n hev hn
    rw [show shoelace ((0, 0) :: [(10, 0), (10, 10), (0, 10)]) = 100 from by
      norm_num [shoelace, shoelaceGo, crossTerm]] at h
    exact h
  have h2 : area_of_single_path (polygonPath innerSquareVerts) n = some (-16) := by
    have h := area_polygon (3, 3) [(3, 7), (7, 7), (7, 3)] n hev hn
    rw [show shoelace ((3, 3) :: [(3, 7), (7, 7), (7, 3)]) = -16 from by
      norm_num [shoelace, shoelaceGo, crossTerm]] at h
    exact h
  simp [area_of_paths, List.foldlM, h1, h2]
  norm_num

/-- Witness for C2 at the minimal even sample count. -/
theorem C2_square_with_hole_area_witness :
    area_of_paths [polygonPath outerSquareVerts, polygonPath innerSquareVerts] 2 =
      some 84 :=
  C2_square_with_hole_area 2 (by decide) (by decide)

/-- Counterexample to claim C5 as stated: with `n = 0` the integrator does
not coerce to 2 subintervals; `0 % 2` is falsy, `n` stays `0`, and
`h = 1.0 / n` raises `ZeroDivisionError`, so no value is returned. -/
theorem C5_counterexample_n_zero :
    simpson_integral (fun _ => (1 : ℚ)) 0 = none := rfl

/-- Claim C5 amended: `n = 1` is coerced to the smallest valid even
subinterval count 2, and `simpson_integral f 1` returns the 2-subinterval
composite-Simpson approximation over `[0,1]`, identical to
`simpson_integral f 2`; but `n = 0` is not coerced and raises a
division-by-zero error, returning no result. -/
theorem C5_small_n_behaviour (f : ℚ → ℚ) :
    simpson_integral f 1 = some ((f 0 + f 1 + 4 * f (1 / 2)) / 6) ∧
      simpson_integral f 1 = simpson_integral f 2 ∧
      simpson_integral f 0 = none := by
  have hIco : Finset.Ico 1 2 = {1} := rfl
  have h1 : simpson_integral f 1 = some ((f 0 + f 1 + 4 * f (1 / 2)) / 6) := by
    simp only [simpson_integral, hIco]
    norm_num [Finset.sum_singleton]
    ring
  have h2 : simpson_integral f 2 = some ((f 0 + f 1 + 4 * f (1 / 2)) / 6) := by
    simp only [simpson_integral, hIco]
    norm_num [Finset.sum_singleton]
    ring
  exact ⟨h1, by rw [h1, h2], rfl⟩

/-! # Claims C4 and C9: the rotation loop -/

theorem rotateSteps_allOff (fuel : ℕ) :
    ∀ ns : List GSNode, ns ≠ [] → (∀ nd ∈ ns, nd.type = NodeType.offcurve) →
      rotateSteps fuel ns = none := by
  induction fuel with
  | zero =>
    intro ns hne hall
    obtain ⟨last, hl⟩ := Option.isSome_iff_exists.mp (List.getLast?_isSome.mpr hne)
    simp only [rotateSteps, hl, if_pos (hall last (List.mem_of_getLast?_eq_some hl))]
  | succ f ih =>
    intro ns hne hall
    obtain ⟨last, hl⟩ := Option.isSome_iff_exists.mp (List.getLast?_isSome.mpr hne)
    rw [rotateSteps.eq_def, hl]
    simp only [if_pos (hall last (List.mem_of_getLast?_eq_some hl))]
    refine ih (last :: ns.dropLast) (by simp) ?_
    intro nd hnd
    rcases List.mem_cons.mp hnd with h | h
    · subst h
      exact hall _ (List.mem_of_getLast?_eq_some hl)
    · exact hall nd (List.dropLast_subset ns h)

/-- Claim C4 (the code is wrong here): for a nonempty subpath whose nodes
are all off-curve, the initial rotation loop of `_path_to_svg_path_data`
never terminates: no finite number of iterations exits the loop, so the
conversion never produces a result. -/
theorem C4_rotation_diverges_on_all_offcurve (ns : List GSNode) (hne : ns ≠ [])
    (hall : ∀ nd ∈ ns, nd.type = NodeType.offcurve) :
    (∀ fuel, rotateSteps fuel ns = none) ∧
      ∀ ascender scaling : ℚ, path_to_svg_path_data ns ascender scaling = none := by
  refine ⟨fun fuel => rotateSteps_allOff fuel ns hne hall, fun ascender scaling => ?_⟩
  simp [path_to_svg_path_data, rotateToOncurve, rotateSteps_allOff ns.length ns hne hall]

/-- Witness for C4: a two-node subpath consisting of off-curve nodes. -/
theorem C4_rotation_diverges_on_all_offcurve_witness :
    (∀ fuel, rotateSteps fuel [offNode1, offNode2] = none) ∧
      ∀ ascender scaling : ℚ,
        path_to_svg_path_data [offNode1, offNode2] ascender scaling = none :=
  C4_rotation_diverges_on_all_offcurve [offNode1, offNode2] (by decide) (by decide)

/-- Counterexample to claim C9 as stated: converting a subpath whose last
node is off-curve rearranges the node sequence of the input path in place
(the rotation mutates `path.nodes`), so the node sequence after the
conversion differs from the sequence before it. -/
theorem C9_counterexample_rotation_mutates :
    rotateToOncurve [qcurveNode, offNode1] ≠ some [qcurveNode, offNode1] ∧
      rotateToOncurve [qcurveNode, offNode1] = some [offNode1, qcurveNode] := by
  exact ⟨by decide, by decide⟩

/-- Claim C9 amended: the engine mutates its input outline exactly in the
rotation step: when the last node of a subpath is already on-curve the
node sequence is left unchanged by the conversion; when the last node is
off-curve the sequence is rotated in place (see the counterexample). -/
theorem C9_no_mutation_when_last_oncurve (ns : List GSNode) (last : GSNode)
    (hl : ns.getLast? = some last) (hty : last.type ≠ NodeType.offcurve) :
    rotateToOncurve ns = some ns := by
  unfold rotateToOncurve
  rw [rotateSteps.eq_def, hl]
  simp only [if_neg hty]

/-- Witness for C9: a square of `LINE` nodes is left unchanged. -/
theorem C9_no_mutation_when_last_oncurve_witness :
    rotateToOncurve squareNodes = some squareNodes :=
  C9_no_mutation_when_last_oncurve squareNodes ⟨0, 0, NodeType.line⟩ (by decide) (by decide)

/-! # Claim C3: a quartic run aborts the whole conversion -/

theorem scan_quartic_none (o1 o2 o3 t : GSNode) (ascender scaling : ℚ)
    (h1 : o1.type = NodeType.offcurve) (h2 : o2.type = NodeType.offcurve)
    (h3 : o3.type = NodeType.offcurve) (h4 : t.type = NodeType.curve) :
    scanNodes ascender scaling [o1, o2, o3, t] 0 = none := by
  rw [scanNodes.eq_def]
  simp [h1, h2, h3, h4, List.takeWhile_cons]

theorem path_quartic_none (o1 o2 o3 t : GSNode) (ascender scaling : ℚ)
    (h1 : o1.type = NodeType.offcurve) (h2 : o2.type = NodeType.offcurve)
    (h3 : o3.type = NodeType.offcurve) (h4 : t.type = NodeType.curve) :
    path_to_svg_path_data [o1, o2, o3, t] ascender scaling = none := by
  have hrot : rotateToOncurve [o1, o2, o3, t] = some [o1, o2, o3, t] := by
    unfold rotateToOncurve
    rw [rotateSteps.eq_def, show ([o1, o2, o3, t] : List GSNode).getLast? = some t from rfl]
    simp [h4]
  simp [path_to_svg_path_data, hrot,
    scan_quartic_none o1 o2 o3 t ascender scaling h1 h2 h3 h4]

theorem layer_append_bad_none (bad : List GSNode) (ascender scaling : ℚ)
    (hbad : path_to_svg_path_data bad ascender scaling = none) :
    ∀ others : List (List GSNode),
      layerPathsToSvg (others ++ [bad]) ascender scaling = none := by
  intro others
  induction others with
  | nil => simp [layerPathsToSvg, hbad]
  | cons p rest ih =>
    cases hp : path_to_svg_path_data p ascender scaling <;>
      simp [layerPathsToSvg, hp, ih]

/-- Claim C3 amended: a subpath with a run of exactly 3 consecutive
off-curve nodes terminated by a cubic-type (`CURVE`) on-curve node makes
the normalizer raise an `AssertionError` (`Expected QCURVE after TrueType
spline`); the conversion of that subpath produces no result at all, and
because `_layer_to_svg_content` converts subpaths with no exception
handling, the failure aborts the whole outline conversion rather than
being contained to the one subpath. -/
theorem C3_quartic_run_aborts_whole_conversion (o1 o2 o3 t : GSNode)
    (ascender scaling : ℚ)
    (h1 : o1.type = NodeType.offcurve) (h2 : o2.type = NodeType.offcurve)
    (h3 : o3.type = NodeType.offcurve) (h4 : t.type = NodeType.curve) :
    path_to_svg_path_data [o1, o2, o3, t] ascender scaling = none ∧
      ∀ others : List (List GSNode),
        layerPathsToSvg (others ++ [[o1, o2, o3, t]]) ascender scaling = none :=
  ⟨path_quartic_none o1 o2 o3 t ascender scaling h1 h2 h3 h4,
   layer_append_bad_none _ ascender scaling
     (path_quartic_none o1 o2 o3 t ascender scaling h1 h2 h3 h4)⟩

/-- Witness for C3 at concrete nodes. -/
theorem C3_quartic_run_aborts_whole_conversion_witness :
    path_to_svg_path_data [offNode1, offNode2, offNode3, curveNode] 10 1 = none ∧
      ∀ others : List (List GSNode),
        layerPathsToSvg (others ++ [[offNode1, offNode2, offNode3, curveNode]]) 10 1 =
          none :=
  C3_quartic_run_aborts_whole_conversion offNode1 offNode2 offNode3 curveNode 10 1
    rfl rfl rfl rfl

theorem square_path_converts :
    path_to_svg_path_data squareNodes 10 1 =
      some [Seg.M 0 10, Seg.L 1 10, Seg.L 1 9, Seg.L 0 9, Seg.L 0 10, Seg.Z] := by
  have hrot : rotateToOncurve squareNodes = some squareNodes := by
    unfold rotateToOncurve
    rw [rotateSteps.eq_def, show squareNodes.getLast? = some ⟨0, 0, NodeType.line⟩ from rfl]
    simp [squareNodes]
  simp only [squareNodes] at hrot
  simp [path_to_svg_path_data, hrot, scanNodes, svg_coords, squareNodes]
  norm_num

/-- Counterexample to claim C3 as stated: an outline with a well-formed
square subpath and a malformed quartic subpath yields no result at all —
the whole conversion dies — although the square subpath alone converts
fine, so no per-subpath empty result is ever produced. -/
theorem C3_counterexample_no_per_subpath_recovery :
    layerPathsToSvg [squareNodes, badQuarticNodes] 10 1 = none ∧
      path_to_svg_path_data squareNodes 10 1 ≠ none := by
  have hbad : path_to_svg_path_data badQuarticNodes 10 1 = none :=
    path_quartic_none offNode1 offNode2 offNode3 curveNode 10 1 rfl rfl rfl rfl
  constructor
  · simp [layerPathsToSvg, square_path_converts, hbad]
  · rw [square_path_converts]
    simp

/-! # Claim C8: the TrueType quadratic spline emitter -/

theorem emit_qspline_spec (ascender scaling : ℚ) (endpoint : GSNode) :
    ∀ offs : List GSNode,
      emit_truetype_qspline ascender scaling offs endpoint =
        (offs.zip
            (((offs.zip offs.tail).map fun pr =>
                ((pr.1.x + pr.2.x) / 2 * scaling,
                 (ascender - (pr.1.y + pr.2.y) / 2) * scaling)) ++
              [(endpoint.x * scaling, (ascender - endpoint.y) * scaling)])).map
          fun pr => Seg.Q (pr.1.x * scaling) ((ascender - pr.1.y) * scaling) pr.2.1 pr.2.2 := by
  intro offs
  induction offs with
  | nil => simp [emit_truetype_qspline]
  | cons o tl ih =>
    cases tl with
    | nil => simp [emit_truetype_qspline, svg_coords]
    | cons o2 rest =>
      simp only [emit_truetype_qspline, svg_coords] at ih ⊢
      rw [ih]
      simp

/-- Claim C8: on a run of `k ≥ 2` off-curve nodes with an explicit
terminator, the emitter produces exactly `k` `Quad` segments; the control
point of the `i`-th is the `i`-th off-curve point, the end point of each
of the first `k - 1` is the midpoint of that off-curve point and the next,
the last ends at the explicit terminator, and every emitted coordinate is
in the Y-down frame `(x * scaling, (ascender - y) * scaling)`. -/
theorem C8_qspline_midpoints (offs : List GSNode) (endpoint : GSNode)
    (ascender scaling : ℚ) (hk : 2 ≤ offs.length) :
    emit_truetype_qspline ascender scaling offs endpoint =
        (offs.zip
            (((offs.zip offs.tail).map fun pr =>
                ((pr.1.x + pr.2.x) / 2 * scaling,
                 (ascender - (pr.1.y + pr.2.y) / 2) * scaling)) ++
              [(endpoint.x * scaling, (ascender - endpoint.y) * scaling)])).map
          (fun pr => Seg.Q (pr.1.x * scaling) ((ascender - pr.1.y) * scaling) pr.2.1 pr.2.2) ∧
      (emit_truetype_qspline ascender scaling offs endpoint).length = offs.length := by
  refine ⟨emit_qspline_spec ascender scaling endpoint offs, ?_⟩
  rw [emit_qspline_spec ascender scaling endpoint offs]
  simp [List.length_zip]
  omega

/-- Witness for C8: a run of three off-curve nodes. -/
theorem C8_qspline_midpoints_witness :
    emit_truetype_qspline 10 1 [offNode1, offNode2, offNode3] qcurveNode =
        (([offNode1, offNode2, offNode3].zip
            ((([offNode1, offNode2, offNode3].zip [offNode1, offNode2, offNode3].tail).map
                fun pr =>
                  ((pr.1.x + pr.2.x) / 2 * 1,
                   ((10 : ℚ) - (pr.1.y + pr.2.y) / 2) * 1)) ++
              [(qcurveNode.x * 1, ((10 : ℚ) - qcurveNode.y) * 1)])).map
          (fun pr => Seg.Q (pr.1.x * 1) (((10 : ℚ) - pr.1.y) * 1) pr.2.1 pr.2.2)) ∧
      (emit_truetype_qspline 10 1 [offNode1, offNode2, offNode3] qcurveNode).length =
        ([offNode1, offNode2, offNode3] : List GSNode).length :=
  C8_qspline_midpoints [offNode1, offNode2, offNode3] qcurveNode 10 1 (by decide)

/-! # Claim C10: the grayscale method dispatcher -/

/-- Claim C10: calling `grayscale` with a method string other than
`integration` and `pyvips` falls through the `if`/`elif` chain and returns
`None`, without error and independently of the two implementations. -/
theorem C10_unknown_method_returns_none {Layer : Type}
    (integrationImpl pyvipsImpl : Layer → ℚ) (layer : Layer) (method : String)
    (h1 : method ≠ "integration") (h2 : method ≠ "pyvips") :
    grayscale integrationImpl pyvipsImpl layer method = none := by
  simp [grayscale, h1, h2]

/-- Witness for C10 at a concrete unsupported method string. -/
theorem C10_unknown_method_returns_none_witness :
    grayscale (fun _ : Unit => 0) (fun _ : Unit => 0) () "cairo" = none :=
  C10_unknown_method_returns_none _ _ () "cairo" (by decide) (by decide)

/-! # Claim C6: unknown command characters in the tokenizer -/

theorem matchNumCore_skip (c : Char) (cs : List Char) (hdig : c.isDigit = false)
    (hdot : c ≠ '.') : matchNumCore (c :: cs) = none := by
  unfold matchNumCore
  rw [List.takeWhile_cons_of_neg (by simp [hdig])]
  simp only [List.length_nil, List.drop_zero]
  split
  · next r2 heq =>
      injection heq with h1 h2
      exact absurd h1 hdot
  · simp

theorem matchNum_skip (c : Char) (cs : List Char) (hdig : c.isDigit = false)
    (hminus : c ≠ '-') (hdot : c ≠ '.') : matchNum (c :: cs) = none := by
  unfold matchNum
  split
  · next t heq =>
      injection heq with h1 h2
      exact absurd h1 hminus
  · exact matchNumCore_skip c cs hdig hdot

/-- Counterexample to claim C6 as stated: the path-description string
`M 1 2 z` contains the unsupported lowercase command `z`, yet
`svg_to_paths` does not fail: the tokenizer regex simply never matches
`z`, the character is dropped, and a partial path (without the close) is
returned. -/
theorem C6_counterexample_lowercase_accepted :
    svg_to_paths lowercaseCloseInput = some [[Seg.M (Tok.num 1) (Tok.num 2)]] := by
  decide

/-- Claim C6 amended: a command character outside the supported set is not
rejected; any character that is not one of `M`,`L`,`Q`,`C`,`Z` and cannot
start a numeral (not a digit, minus or dot) — lowercase commands in
particular — is silently dropped by the tokenizer; a `ValueError` arises
only later, when a leftover number token occupies a command position, and
then no partial path is returned. -/
theorem C6_unknown_commands_silently_dropped (c : Char) (cs : List Char)
    (hcmd : isCmdChar c = false) (hdig : c.isDigit = false)
    (hminus : c ≠ '-') (hdot : c ≠ '.') :
    tokenize (c :: cs) = tokenize cs ∧
      ∀ (q : ℚ) (ts : List Tok) (paths : List (List (Seg Tok)))
        (curr : List (Seg Tok)), parseTokens (Tok.num q :: ts) paths curr = none := by
  refine ⟨?_, fun q ts paths curr => rfl⟩
  unfold tokenize
  simp only [tokGo, hcmd, matchNum_skip c cs hdig hminus hdot]
  simp

/-- Witness for C6 on the lowercase command `z`. -/
theorem C6_unknown_commands_silently_dropped_witness :
    tokenize ('z' :: [' ', '1']) = tokenize [' ', '1'] ∧
      ∀ (q : ℚ) (ts : List Tok) (paths : List (List (Seg Tok)))
        (curr : List (Seg Tok)), parseTokens (Tok.num q :: ts) paths curr = none :=
  C6_unknown_commands_silently_dropped 'z' [' ', '1'] (by decide) (by decide)
    (by decide) (by decide)

/-! # Claim C7: round-trip through the interchange format -/

theorem digitsVal_go (v : List Char) :
    ∀ acc : ℕ, v.foldl (fun a c => 10 * a + (c.toNat - 48)) acc =
      acc * 10 ^ v.length + digitsVal v := by
  induction v with
  | nil => intro acc; simp [digitsVal]
  | cons c v ih =>
    intro acc
    have h2 : digitsVal (c :: v) = (c.toNat - 48) * 10 ^ v.length + digitsVal v := by
      show List.foldl _ _ (c :: v) = _
      rw [List.foldl_cons, ih]
      ring_nf
    rw [List.foldl_cons, ih, List.length_cons, h2]
    ring

theorem digitsVal_append (u v : List Char) :
    digitsVal (u ++ v) = digitsVal u * 10 ^ v.length + digitsVal v := by
  simp only [digitsVal, List.foldl_append]
  exact digitsVal_go v _

theorem digitChar_isDigit (d : ℕ) (hd : d < 10) : (digitChar d).isDigit = true := by
  interval_cases d <;> decide

theorem digitChar_val (d : ℕ) (hd : d < 10) : (digitChar d).toNat - 48 = d := by
  interval_cases d <;> decide

theorem digitsVal_ofDigits (ds : List ℕ) (h : ∀ d ∈ ds, d < 10) :
    digitsVal (ds.reverse.map digitChar) = Nat.ofDigits 10 ds := by
  induction ds with
  | nil => simp [digitsVal, Nat.ofDigits]
  | cons d ds ih =>
    have hd : d < 10 := h d (List.mem_cons_self d ds)
    have hds : ∀ x ∈ ds, x < 10 := fun x hx => h x (List.mem_cons_of_mem d hx)
    simp only [List.reverse_cons, List.map_append, List.map_cons, List.map_nil,
      digitsVal_append, ih hds, Nat.ofDigits_cons]
    simp [digitsVal, digitChar_val d hd]
    ring

theorem renderNat_all_digits (n : ℕ) : ∀ c ∈ renderNat n, c.isDigit = true := by
  intro c hc
  unfold renderNat at hc
  split at hc
  · simp at hc
    subst hc
    decide
  · obtain ⟨d, hd, rfl⟩ := List.mem_map.mp hc
    exact digitChar_isDigit d
      (Nat.digits_lt_base (by norm_num) (List.mem_reverse.mp hd))

theorem renderNat_val (n : ℕ) : digitsVal (renderNat n) = n := by
  unfold renderNat
  split
  · subst_eqs
    decide
  · rw [digitsVal_ofDigits _ (fun d hd => Nat.digits_lt_base (by norm_num) hd)]
    exact Nat.ofDigits_digits 10 n

theorem renderNat_ne_nil (n : ℕ) : renderNat n ≠ [] := by
  unfold renderNat
  split
  · simp
  · next h =>
    simp only [ne_eq, List.map_eq_nil_iff, List.reverse_eq_nil_iff]
    exact Nat.digits_ne_nil_iff_ne_zero.mpr h

theorem ofDigits_replicate_zero (k : ℕ) : Nat.ofDigits 10 (List.replicate k 0) = 0 := by
  induction k with
  | zero => simp [Nat.ofDigits]
  | succ m ih => simp [List.replicate_succ, Nat.ofDigits_cons, ih]

theorem digits_length_le_of_lt (frac e : ℕ) (h : frac < 10 ^ e) :
    (Nat.digits 10 frac).length ≤ e := by
  by_cases h0 : frac = 0
  · subst h0; simp
  · by_contra hlt
    push_neg at hlt
    have h1 : 10 ^ (Nat.digits 10 frac).length ≤ 10 * frac :=
      Nat.base_pow_length_digits_le 10 frac (by norm_num) h0
    have h2 : 10 ^ (e + 1) ≤ 10 ^ (Nat.digits 10 frac).length :=
      Nat.pow_le_pow_right (by norm_num) (by omega)
    have h3 : 10 ^ (e + 1) = 10 * 10 ^ e := by ring
    have h4 : 10 * 10 ^ e ≤ 10 * frac := by omega
    have h5 : 10 ^ e ≤ frac := Nat.le_of_mul_le_mul_left h4 (by norm_num)
    omega

theorem renderPad_all_digits (n e : ℕ) : ∀ c ∈ renderPad n e, c.isDigit = true := by
  intro c hc
  unfold renderPad at hc
  obtain ⟨d, hd, rfl⟩ := List.mem_map.mp hc
  rcases List.mem_append.mp (List.mem_reverse.mp hd) with h | h
  · exact digitChar_isDigit d (Nat.digits_lt_base (by norm_num) h)
  · rw [List.eq_of_mem_replicate h]
    decide

theorem renderPad_length (n e : ℕ) (h : n < 10 ^ e) : (renderPad n e).length = e := by
  unfold renderPad
  have := digits_length_le_of_lt n e h
  simp only [List.length_map, List.length_reverse, List.length_append,
    List.length_replicate]
  omega

theorem renderPad_val (n e : ℕ) : digitsVal (renderPad n e) = n := by
  unfold renderPad
  rw [digitsVal_ofDigits]
  · rw [Nat.ofDigits_append, Nat.ofDigits_digits, ofDigits_replicate_zero]
    simp
  · intro d hd
    rcases List.mem_append.mp hd with h | h
    · exact Nat.digits_lt_base (by norm_num) h
    · rw [List.eq_of_mem_replicate h]
      norm_num

/-- The separators that follow an encoded numeral: end of text or a
space. -/
def SepOk (r : List Char) : Prop := r = [] ∨ ∃ t, r = ' ' :: t

theorem sep_takeWhile (r : List Char) (h : SepOk r) :
    r.takeWhile Char.isDigit = [] := by
  rcases h with rfl | ⟨t, rfl⟩
  · rfl
  · exact List.takeWhile_cons_of_neg (by decide)

theorem takeWhile_all_append (p : Char → Bool) :
    ∀ (u r : List Char), (∀ c ∈ u, p c = true) → r.takeWhile p = [] →
      (u ++ r).takeWhile p = u := by
  intro u
  induction u with
  | nil => intro r _ hr; simpa using hr
  | cons c u ih =>
    intro r hu hr
    rw [List.cons_append,
      List.takeWhile_cons_of_pos (hu c (List.mem_cons_self c u)),
      ih r (fun x hx => hu x (List.mem_cons_of_mem c hx)) hr]

theorem matchNumCore_int (D r : List Char) (hD : ∀ c ∈ D, c.isDigit = true)
    (hne : D ≠ []) (hsep : SepOk r) : matchNumCore (D ++ r) = some (D, r) := by
  simp only [matchNumCore]
  rw [takeWhile_all_append _ D r hD (sep_takeWhile r hsep), List.drop_left]
  rcases hsep with rfl | ⟨t, rfl⟩
  · simp [hne]
  · simp [hne]

theorem matchNumCore_dec (A B r : List Char) (hA : ∀ c ∈ A, c.isDigit = true)
    (hB : ∀ c ∈ B, c.isDigit = true) (hBne : B ≠ []) (hsep : SepOk r) :
    matchNumCore (A ++ '.' :: (B ++ r)) = some (A ++ '.' :: B, r) := by
  simp only [matchNumCore]
  have h1 : (A ++ '.' :: (B ++ r)).takeWhile Char.isDigit = A :=
    takeWhile_all_append _ A _ hA (List.takeWhile_cons_of_neg (by decide))
  have h2 : (B ++ r).takeWhile Char.isDigit = B :=
    takeWhile_all_append _ B r hB (sep_takeWhile r hsep)
  rw [h1, List.drop_left]
  simp only [h2, List.drop_left]
  simp [hBne]

theorem matchNum_not_minus (u : List Char) (h : u.head? ≠ some '-') :
    matchNum u = matchNumCore u := by
  unfold matchNum
  split
  · exact absurd rfl h
  · rfl

theorem numeralToRat_not_minus (u : List Char) (h : u.head? ≠ some '-') :
    numeralToRat u = numeralCore u := by
  unfold numeralToRat
  split
  · exact absurd rfl h
  · rfl

theorem decExponent_spec (q : ℚ) (hq : DecRat q) :
    (q * 10 ^ decExponent q).den = 1 := by
  obtain ⟨e, he, hden⟩ := hq
  have hmem : ∃ x, x ∈ List.range (q.den + 1) ∧
      (fun e => decide ((q * 10 ^ e).den = 1)) x = true := by
    exact ⟨e, List.mem_range.mpr (by omega), by simpa using hden⟩
  have hsome := List.find?_isSome.mpr hmem
  obtain ⟨e0, hfind⟩ := Option.isSome_iff_exists.mp hsome
  have hp := List.find?_some hfind
  unfold decExponent
  rw [hfind]
  simpa using hp

theorem numeralCore_renderNat (n : ℕ) : numeralCore (renderNat n) = (n : ℚ) := by
  simp only [numeralCore]
  rw [List.takeWhile_eq_self_iff.mpr (renderNat_all_digits n), List.drop_length]
  simp [renderNat_val n]

theorem numeralCore_decimal (i f e : ℕ) (hf : f < 10 ^ e) :
    numeralCore (renderNat i ++ '.' :: renderPad f e) =
      ((i * 10 ^ e + f : ℕ) : ℚ) / (10 : ℚ) ^ e := by
  simp only [numeralCore]
  have h1 : (renderNat i ++ '.' :: renderPad f e).takeWhile Char.isDigit = renderNat i :=
    takeWhile_all_append _ _ _ (renderNat_all_digits i)
      (List.takeWhile_cons_of_neg (by decide))
  rw [h1, List.drop_left]
  simp only [digitsVal_append, renderNat_val, renderPad_val, renderPad_length f e hf]

theorem renderNat_head_not_minus (n : ℕ) (v : List Char) :
    (renderNat n ++ v).head? ≠ some '-' := by
  cases h : renderNat n with
  | nil => exact absurd h (renderNat_ne_nil n)
  | cons c t =>
    have hc : c.isDigit = true := renderNat_all_digits n c (h ▸ List.mem_cons_self c t)
    simp only [List.cons_append, List.head?_cons, ne_eq, Option.some.injEq]
    intro hcon
    rw [hcon] at hc
    exact absurd hc (by decide)

theorem ratCore_val (m : ℤ) (e : ℕ) :
    numeralToRat (ratCore m e) = (m : ℚ) / 10 ^ e := by
  have hfrac : m.natAbs % 10 ^ e < 10 ^ e := Nat.mod_lt _ (by positivity)
  have hcore : numeralCore
      (if e = 0 then renderNat m.natAbs
       else renderNat (m.natAbs / 10 ^ e) ++ '.' :: renderPad (m.natAbs % 10 ^ e) e) =
      (m.natAbs : ℚ) / 10 ^ e := by
    by_cases he : e = 0
    · subst he
      simp [numeralCore_renderNat]
    · rw [if_neg he, numeralCore_decimal _ _ _ hfrac, Nat.div_add_mod']
  have hhead : ∀ core, core = (if e = 0 then renderNat m.natAbs
      else renderNat (m.natAbs / 10 ^ e) ++ '.' :: renderPad (m.natAbs % 10 ^ e) e) →
      core.head? ≠ some '-' := by
    intro core hc
    subst hc
    by_cases he : e = 0
    · rw [if_pos he, ← List.append_nil (renderNat m.natAbs)]
      exact renderNat_head_not_minus _ _
    · rw [if_neg he]
      exact renderNat_head_not_minus _ _
  unfold ratCore
  by_cases hneg : m < 0
  · rw [if_pos hneg]
    show numeralToRat ('-' :: _) = _
    rw [show ∀ t, numeralToRat ('-' :: t) = - numeralCore t from fun t => rfl, hcore]
    rw [show (m.natAbs : ℚ) = -(m : ℚ) from by
      rw [Int.cast_natAbs]
      simp [abs_of_neg (show (m : ℚ) < 0 from by exact_mod_cast hneg)]]
    ring
  · rw [if_neg hneg]
    rw [numeralToRat_not_minus _ (hhead _ rfl), hcore]
    rw [show (m.natAbs : ℚ) = (m : ℚ) from by
      rw [Int.cast_natAbs]
      simp [abs_of_nonneg (show (0 : ℚ) ≤ (m : ℚ) from by exact_mod_cast not_lt.mp hneg)]]

theorem renderPad_ne_nil (n e : ℕ) (he : e ≠ 0) (h : n < 10 ^ e) :
    renderPad n e ≠ [] := by
  intro hnil
  have := renderPad_length n e h
  rw [hnil] at this
  exact he this.symm

theorem matchNum_ratCore (m : ℤ) (e : ℕ) (r : List Char) (hsep : SepOk r) :
    matchNum (ratCore m e ++ r) = some (ratCore m e, r) := by
  have hfrac : m.natAbs % 10 ^ e < 10 ^ e := Nat.mod_lt _ (by positivity)
  have hcore : ∀ core, core = (if e = 0 then renderNat m.natAbs
      else renderNat (m.natAbs / 10 ^ e) ++ '.' :: renderPad (m.natAbs % 10 ^ e) e) →
      matchNumCore (core ++ r) = some (core, r) := by
    intro core hc
    subst hc
    by_cases he : e = 0
    · simp only [if_pos he]
      exact matchNumCore_int _ r (renderNat_all_digits _) (renderNat_ne_nil _) hsep
    · simp only [if_neg he]
      rw [List.append_assoc, List.cons_append]
      exact matchNumCore_dec _ _ r (renderNat_all_digits _) (renderPad_all_digits _ _)
        (renderPad_ne_nil _ e he hfrac) hsep
  unfold ratCore
  by_cases hneg : m < 0
  · rw [if_pos hneg, List.cons_append]
    show (matchNumCore _).map _ = _
    rw [hcore _ rfl]
    rfl
  · rw [if_neg hneg]
    have hhead : ((if e = 0 then renderNat m.natAbs
        else renderNat (m.natAbs / 10 ^ e) ++ '.' :: renderPad (m.natAbs % 10 ^ e) e) ++
          r).head? ≠ some '-' := by
      by_cases he : e = 0
      · rw [if_pos he]
        exact renderNat_head_not_minus _ _
      · rw [if_neg he, List.append_assoc]
        exact renderNat_head_not_minus _ _
    rw [matchNum_not_minus _ hhead, hcore _ rfl]

theorem isDigit_not_cmd (c : Char) (h : c.isDigit = true) : isCmdChar c = false := by
  unfold isCmdChar
  by_contra hc
  simp only [Bool.not_eq_false, Bool.or_eq_true, beq_iff_eq] at hc
  rcases hc with (((rfl | rfl) | rfl) | rfl) | rfl <;> exact absurd h (by decide)

theorem ratCore_ne_nil (m : ℤ) (e : ℕ) : ratCore m e ≠ [] := by
  unfold ratCore
  by_cases hneg : m < 0
  · simp [hneg]
  · rw [if_neg hneg]
    by_cases he : e = 0
    · simpa [he] using renderNat_ne_nil m.natAbs
    · simp [he]

theorem ratCore_head_not_cmd (m : ℤ) (e : ℕ) (c0 : Char) (t0 : List Char)
    (h : ratCore m e = c0 :: t0) : isCmdChar c0 = false := by
  unfold ratCore at h
  by_cases hneg : m < 0
  · rw [if_pos hneg] at h
    injection h with h1 _
    rw [← h1]
    decide
  · rw [if_neg hneg] at h
    have hd : c0.isDigit = true := by
      by_cases he : e = 0
      · rw [if_pos he] at h
        refine renderNat_all_digits m.natAbs c0 ?_
        rw [h]
        exact List.mem_cons_self c0 t0
      · rw [if_neg he] at h
        cases hA : renderNat (m.natAbs / 10 ^ e) with
        | nil => exact absurd hA (renderNat_ne_nil _)
        | cons a t =>
          rw [hA, List.cons_append] at h
          injection h with h1 _
          rw [← h1]
          refine renderNat_all_digits (m.natAbs / 10 ^ e) a ?_
          rw [hA]
          exact List.mem_cons_self a t
    exact isDigit_not_cmd c0 hd

theorem tokGo_skip : ∀ u r : List Char, tokGo (u ++ r) u.length = tokGo r 0 := by
  intro u
  induction u with
  | nil => intro r; simp
  | cons c u ih =>
    intro r
    rw [List.cons_append]
    show tokGo (c :: (u ++ r)) (u.length + 1) = _
    simp only [tokGo]
    exact ih r

theorem tokGo_cmd (c : Char) (rest : List Char) (h : isCmdChar c = true) :
    tokGo (c :: rest) 0 = Tok.cmd c :: tokGo rest 0 := by
  simp [tokGo, h]

theorem tokGo_space (rest : List Char) : tokGo (' ' :: rest) 0 = tokGo rest 0 := by
  simp only [tokGo, show isCmdChar ' ' = false from rfl,
    matchNum_skip ' ' rest (by decide) (by decide) (by decide)]
  simp

theorem tokGo_ratCore (m : ℤ) (e : ℕ) (r : List Char) (hsep : SepOk r) :
    tokGo (ratCore m e ++ r) 0 = Tok.num ((m : ℚ) / 10 ^ e) :: tokGo r 0 := by
  obtain ⟨c0, t0, hc⟩ : ∃ c0 t0, ratCore m e = c0 :: t0 := by
    cases h : ratCore m e with
    | nil => exact absurd h (ratCore_ne_nil m e)
    | cons a b => exact ⟨a, b, rfl⟩
  have hm : matchNum (c0 :: (t0 ++ r)) = some (ratCore m e, r) := by
    rw [← List.cons_append, ← hc]
    exact matchNum_ratCore m e r hsep
  rw [hc, List.cons_append]
  simp only [tokGo, ratCore_head_not_cmd m e c0 t0 hc, Bool.false_eq_true, if_false, hm]
  have hval : numeralToRat (ratCore m e) = (m : ℚ) / 10 ^ e := ratCore_val m e
  have hlen : (ratCore m e).length - 1 = t0.length := by rw [hc]; simp
  rw [hval, hlen, tokGo_skip t0 r]

theorem tokGo_rat (q : ℚ) (hq : DecRat q) (r : List Char) (hsep : SepOk r) :
    tokGo (ratToChars q ++ r) 0 = Tok.num q :: tokGo r 0 := by
  unfold ratToChars
  rw [tokGo_ratCore _ _ r hsep]
  have hden := decExponent_spec q hq
  have hqe : ((q * 10 ^ decExponent q).num : ℚ) = q * 10 ^ decExponent q :=
    (Rat.den_eq_one_iff _).mp hden
  rw [hqe, mul_div_cancel_right₀ _ (by positivity : ((10 : ℚ) ^ decExponent q) ≠ 0)]

theorem tokGo_encodeSeg (s : Seg ℚ) (hdec : ∀ q ∈ segCoords s, DecRat q)
    (r : List Char) (hsep : SepOk r) :
    tokGo (encodeSeg s ++ r) 0 = segToks s ++ tokGo r 0 := by
  cases s with
  | M x y =>
    have hx : DecRat x := hdec x (by simp [segCoords])
    have hy : DecRat y := hdec y (by simp [segCoords])
    simp only [encodeSeg, segToks, List.cons_append, List.append_assoc]
    rw [tokGo_cmd _ _ (by decide), tokGo_space,
      tokGo_rat x hx _ (Or.inr ⟨_, rfl⟩), tokGo_space, tokGo_rat y hy r hsep]
    rfl
  | L x y =>
    have hx : DecRat x := hdec x (by simp [segCoords])
    have hy : DecRat y := hdec y (by simp [segCoords])
    simp only [encodeSeg, segToks, List.cons_append, List.append_assoc]
    rw [tokGo_cmd _ _ (by decide), tokGo_space,
      tokGo_rat x hx _ (Or.inr ⟨_, rfl⟩), tokGo_space, tokGo_rat y hy r hsep]
    rfl
  | Q cx cy x y =>
    have h1 : DecRat cx := hdec cx (by simp [segCoords])
    have h2 : DecRat cy := hdec cy (by simp [segCoords])
    have h3 : DecRat x := hdec x (by simp [segCoords])
    have h4 : DecRat y := hdec y (by simp [segCoords])
    simp only [encodeSeg, segToks, List.cons_append, List.append_assoc]
    rw [tokGo_cmd _ _ (by decide), tokGo_space,
      tokGo_rat cx h1 _ (Or.inr ⟨_, rfl⟩), tokGo_space, tokGo_rat cy h2 _ (Or.inr ⟨_, rfl⟩),
      tokGo_space, tokGo_rat x h3 _ (Or.inr ⟨_, rfl⟩), tokGo_space, tokGo_rat y h4 r hsep]
    rfl
  | C a b c d x y =>
    have h1 : DecRat a := hdec a (by simp [segCoords])
    have h2 : DecRat b := hdec b (by simp [segCoords])
    have h3 : DecRat c := hdec c (by simp [segCoords])
    have h4 : DecRat d := hdec d (by simp [segCoords])
    have h5 : DecRat x := hdec x (by simp [segCoords])
    have h6 : DecRat y := hdec y (by simp [segCoords])
    simp only [encodeSeg, segToks, List.cons_append, List.append_assoc]
    rw [tokGo_cmd _ _ (by decide), tokGo_space,
      tokGo_rat a h1 _ (Or.inr ⟨_, rfl⟩), tokGo_space, tokGo_rat b h2 _ (Or.inr ⟨_, rfl⟩),
      tokGo_space, tokGo_rat c h3 _ (Or.inr ⟨_, rfl⟩), tokGo_space, tokGo_rat d h4 _ (Or.inr ⟨_, rfl⟩),
      tokGo_space, tokGo_rat x h5 _ (Or.inr ⟨_, rfl⟩), tokGo_space, tokGo_rat y h6 r hsep]
    rfl
  | Z =>
    simp only [encodeSeg, segToks, List.cons_append, List.nil_append]
    rw [tokGo_cmd _ _ (by decide)]

theorem tokenize_encodePath :
    ∀ p : List (Seg ℚ), (∀ s ∈ p, ∀ q ∈ segCoords s, DecRat q) →
      tokenize (encodePath p) = (p.map segToks).flatten := by
  intro p
  induction p with
  | nil => intro _; rfl
  | cons s rest ih =>
    intro hdec
    have hs : ∀ q ∈ segCoords s, DecRat q := hdec s (List.mem_cons_self s rest)
    have hrest : ∀ x ∈ rest, ∀ q ∈ segCoords x, DecRat q :=
      fun x hx => hdec x (List.mem_cons_of_mem s hx)
    cases rest with
    | nil =>
      show tokGo (joinSpace [encodeSeg s]) 0 = _
      rw [show joinSpace [encodeSeg s] = encodeSeg s from rfl,
        ← List.append_nil (encodeSeg s), tokGo_encodeSeg s hs [] (Or.inl rfl)]
      simp [tokenize]
      rfl
    | cons b r2 =>
      show tokGo (joinSpace (encodeSeg s :: encodeSeg b :: (r2.map encodeSeg))) 0 = _
      rw [show joinSpace (encodeSeg s :: encodeSeg b :: (r2.map encodeSeg)) =
          encodeSeg s ++ ' ' :: joinSpace (encodeSeg b :: (r2.map encodeSeg)) from rfl,
        tokGo_encodeSeg s hs _ (Or.inr ⟨_, rfl⟩), tokGo_space]
      have := ih hrest
      unfold tokenize at this
      rw [show encodePath (b :: r2) = joinSpace (encodeSeg b :: (r2.map encodeSeg))
          from rfl] at this
      rw [this]
      simp

theorem parseTokens_drawing :
    ∀ body : List (Seg ℚ), (∀ s ∈ body, isDrawSeg s = true) →
      ∀ (tail : List Tok) (paths : List (List (Seg Tok))) (curr : List (Seg Tok)),
        parseTokens ((body.map segToks).flatten ++ tail) paths curr =
          parseTokens tail paths (curr ++ body.map (Seg.map Tok.num)) := by
  intro body
  induction body with
  | nil => intro _ tail paths curr; simp
  | cons s rest ih =>
    intro hb tail paths curr
    have hs := hb s (List.mem_cons_self s rest)
    have hrest : ∀ x ∈ rest, isDrawSeg x = true :=
      fun x hx => hb x (List.mem_cons_of_mem s hx)
    cases s with
    | M x y => exact absurd hs (by simp [isDrawSeg])
    | Z => exact absurd hs (by simp [isDrawSeg])
    | L x y =>
      show parseTokens (Tok.cmd 'L' :: Tok.num x :: Tok.num y ::
        ((rest.map segToks).flatten ++ tail)) paths curr = _
      rw [show parseTokens (Tok.cmd 'L' :: Tok.num x :: Tok.num y ::
          ((rest.map segToks).flatten ++ tail)) paths curr =
          parseTokens ((rest.map segToks).flatten ++ tail) paths
            (curr ++ [Seg.L (Tok.num x) (Tok.num y)]) from rfl,
        ih hrest tail paths _]
      simp [Seg.map]
    | Q cx cy x y =>
      show parseTokens (Tok.cmd 'Q' :: Tok.num cx :: Tok.num cy :: Tok.num x ::
        Tok.num y :: ((rest.map segToks).flatten ++ tail)) paths curr = _
      rw [show parseTokens (Tok.cmd 'Q' :: Tok.num cx :: Tok.num cy :: Tok.num x ::
          Tok.num y :: ((rest.map segToks).flatten ++ tail)) paths curr =
          parseTokens ((rest.map segToks).flatten ++ tail) paths
            (curr ++ [Seg.Q (Tok.num cx) (Tok.num cy) (Tok.num x) (Tok.num y)]) from rfl,
        ih hrest tail paths _]
      simp [Seg.map]
    | C a b c d x y =>
      show parseTokens (Tok.cmd 'C' :: Tok.num a :: Tok.num b :: Tok.num c ::
        Tok.num d :: Tok.num x :: Tok.num y ::
        ((rest.map segToks).flatten ++ tail)) paths curr = _
      rw [show parseTokens (Tok.cmd 'C' :: Tok.num a :: Tok.num b :: Tok.num c ::
          Tok.num d :: Tok.num x :: Tok.num y ::
          ((rest.map segToks).flatten ++ tail)) paths curr =
          parseTokens ((rest.map segToks).flatten ++ tail) paths
            (curr ++ [Seg.C (Tok.num a) (Tok.num b) (Tok.num c) (Tok.num d)
              (Tok.num x) (Tok.num y)]) from rfl,
        ih hrest tail paths _]
      simp [Seg.map]

theorem parseTokens_nil_flush (paths : List (List (Seg Tok))) (curr : List (Seg Tok))
    (h : curr ≠ []) : parseTokens [] paths curr = some (paths ++ [curr]) := by
  simp [parseTokens, h]

theorem parseTokens_close (paths : List (List (Seg Tok))) (curr : List (Seg Tok)) :
    parseTokens [Tok.cmd 'Z'] paths curr = some (paths ++ [curr ++ [Seg.Z]]) := by
  show parseTokens [] paths (curr ++ [Seg.Z]) = _
  exact parseTokens_nil_flush paths _ (by simp)

/-- Claim C7: round-trip through the interchange format.  A canonical path
(one `Move`, then drawing segments, optionally a `Close`), all of whose
coordinates have finite decimal expansions — as every machine-float
coordinate of the source program does — renders to the path-description
text and parses back, by `svg_to_paths`, to exactly the same segment
sequence with exactly the same coordinates. -/
theorem C7_roundtrip (x y : ℚ) (body : List (Seg ℚ)) (close : Bool)
    (hbody : ∀ s ∈ body, isDrawSeg s = true)
    (hdec : ∀ s ∈ Seg.M x y :: (body ++ if close then [Seg.Z] else []),
      ∀ q ∈ segCoords s, DecRat q) :
    svg_to_paths
        (String.mk (encodePath (Seg.M x y :: (body ++ if close then [Seg.Z] else [])))) =
      some [(Seg.M x y :: (body ++ if close then [Seg.Z] else [])).map (Seg.map Tok.num)] := by
  unfold svg_to_paths
  rw [show (String.mk (encodePath (Seg.M x y ::
      (body ++ if close then [Seg.Z] else [])))).data =
      encodePath (Seg.M x y :: (body ++ if close then [Seg.Z] else [])) from rfl]
  rw [tokenize_encodePath _ hdec]
  cases close with
  | true =>
    rw [show (if (true : Bool) = true then [Seg.Z] else ([] : List (Seg ℚ))) = [Seg.Z]
      from rfl]
    simp only [List.map_cons, List.map_append, List.flatten_cons,
      List.flatten_append, List.map_nil, List.flatten_nil]
    show parseTokens (Tok.cmd 'M' :: Tok.num x :: Tok.num y ::
      ((body.map segToks).flatten ++ ([Tok.cmd 'Z'] ++ []))) [] [] = _
    rw [show parseTokens (Tok.cmd 'M' :: Tok.num x :: Tok.num y ::
        ((body.map segToks).flatten ++ ([Tok.cmd 'Z'] ++ []))) [] [] =
        parseTokens ((body.map segToks).flatten ++ ([Tok.cmd 'Z'] ++ [])) []
          [Seg.M (Tok.num x) (Tok.num y)] from rfl,
      show ([Tok.cmd 'Z'] ++ [] : List Tok) = [Tok.cmd 'Z'] from rfl,
      parseTokens_drawing body hbody [Tok.cmd 'Z'] [] _, parseTokens_close]
    simp [Seg.map]
  | false =>
    rw [show (if (false : Bool) = true then [Seg.Z] else ([] : List (Seg ℚ))) = []
      from rfl]
    simp only [List.append_nil, List.map_cons, List.flatten_cons]
    show parseTokens (Tok.cmd 'M' :: Tok.num x :: Tok.num y ::
      (body.map segToks).flatten) [] [] = _
    rw [show parseTokens (Tok.cmd 'M' :: Tok.num x :: Tok.num y ::
        (body.map segToks).flatten) [] [] =
        parseTokens ((body.map segToks).flatten) []
          [Seg.M (Tok.num x) (Tok.num y)] from rfl,
      ← List.append_nil ((body.map segToks).flatten),
      parseTokens_drawing body hbody [] [] _, parseTokens_nil_flush _ _ (by simp)]
    simp [Seg.map]

/-- Witness for C7: the closed path `M 1 2 L 0.5 3 Z`. -/
theorem C7_roundtrip_witness :
    svg_to_paths (String.mk (encodePath [Seg.M 1 2, Seg.L (1 / 2) 3, Seg.Z])) =
      some [[Seg.M (Tok.num 1) (Tok.num 2), Seg.L (Tok.num (1 / 2)) (Tok.num 3),
        Seg.Z]] := by
  have d1 : DecRat (1 : ℚ) := ⟨0, Nat.zero_le _, by norm_num [Rat.den_one]⟩
  have d2 : DecRat (2 : ℚ) := ⟨0, Nat.zero_le _, by norm_num [Rat.den_ofNat]⟩
  have d3 : DecRat (3 : ℚ) := ⟨0, Nat.zero_le _, by norm_num [Rat.den_ofNat]⟩
  have dh : DecRat (1 / 2 : ℚ) := ⟨1, (Rat.den_pos _), by
    rw [show ((1 : ℚ) / 2 * 10 ^ 1) = 5 from by norm_num]
    rfl⟩
  have h := C7_roundtrip 1 2 [Seg.L (1 / 2) 3] true
    (by intro s hs; simp only [List.mem_singleton] at hs; subst hs; rfl)
    (by
      intro s hs q hq
      simp at hs
      rcases hs with rfl | rfl | rfl
      · simp only [segCoords, List.mem_cons, List.not_mem_nil, or_false] at hq
        rcases hq with rfl | rfl
        · exact d1
        · exact d2
      · simp only [segCoords, List.mem_cons, List.not_mem_nil, or_false] at hq
        rcases hq with rfl | rfl
        · rw [← one_div]
          exact dh
        · exact d3
      · simp [segCoords] at hq)
  simpa using h
